import Mathlib

/-!
Verification development for the Palladium repository.

The repository ships example programs plus a tic-tac-toe application
(`src/test.py`).  The `GameState` class of `src/test.py` is embedded
directly from its source.  The Palladium library itself (Surface, blur,
LayerStack, Animation, SpringAnimation, Input) is a compiled extension
whose Python sources are not in the repository; those components are
modelled from the specification, as marked on each definition.
-/

namespace Palladium

/-! ## GameState (from src/test.py) -/

/-- Embeds `GameState` of `src/test.py`: a 3×3 board of strings
(`""`, `"X"`, `"O"`), the player to move, and an optional winner
(`"X"`, `"O"` or `"Draw"`). -/
structure GameState where
  board : Fin 3 → Fin 3 → String
  current : String
  winner : Option String

/-- Embeds `GameState.__init__`: empty board, `"X"` to move, no winner. -/
def GameState.init : GameState :=
  { board := fun _ _ => "", current := "X", winner := none }

/-- Embeds `GameState.check_draw`: every cell is non-empty. -/
def GameState.check_draw (g : GameState) : Bool :=
  (List.finRange 3).all fun r => (List.finRange 3).all fun c => g.board r c != ""

/-- Embeds `GameState.check_win`: some row, column or diagonal is all `p`. -/
def GameState.check_win (g : GameState) (p : String) : Bool :=
  ((List.finRange 3).any fun i =>
    (g.board i 0 == p && g.board i 1 == p && g.board i 2 == p) ||
    (g.board 0 i == p && g.board 1 i == p && g.board 2 i == p)) ||
  (g.board 0 0 == p && g.board 1 1 == p && g.board 2 2 == p) ||
  (g.board 0 2 == p && g.board 1 1 == p && g.board 2 0 == p)

/-- Embeds `GameState.play`: rejects the move (returning `false` and the
unchanged state) when a winner exists or the cell is occupied; otherwise
writes `current` into the cell, then sets the winner or flips `current`,
returning `true` and the new state. -/
def GameState.play (g : GameState) (r c : Fin 3) : Bool × GameState :=
  if g.winner.isSome then (false, g)
  else if g.board r c != "" then (false, g)
  else
    let g1 : GameState :=
      { g with board := fun r' c' => if r' = r ∧ c' = c then g.current else g.board r' c' }
    if g1.check_win g.current then
      (true, { g1 with winner := some g.current })
    else if g1.check_draw then
      (true, { g1 with winner := some "Draw" })
    else
      (true, { g1 with current := if g.current == "X" then "O" else "X" })

/-- Runs a list of moves from a state (each iteration of the UI loop calls
`play` and keeps the mutated state). -/
def GameState.run (g : GameState) (ms : List (Fin 3 × Fin 3)) : GameState :=
  ms.foldl (fun g' m => (g'.play m.1 m.2).2) g

/-- The reachable-state invariant of claim C10. -/
def GameState.Inv (g : GameState) : Prop :=
  (g.current = "X" ∨ g.current = "O") ∧
  (∀ p, (p = "X" ∨ p = "O") → g.winner = some p → g.check_win p = true) ∧
  (g.winner = some "Draw" → g.check_draw = true)

theorem GameState.play_preserves_Inv (g : GameState) (r c : Fin 3) (h : g.Inv) :
    ((g.play r c).2).Inv := by
  obtain ⟨hc, hw, hd⟩ := h
  simp only [GameState.play]
  split
  case isTrue h1 => exact ⟨hc, hw, hd⟩
  case isFalse h1 =>
    split
    case isTrue h2 => exact ⟨hc, hw, hd⟩
    case isFalse h2 =>
      have hwnone : g.winner = none := Option.not_isSome_iff_eq_none.mp h1
      split
      case isTrue hwin =>
        refine ⟨hc, ?_, ?_⟩
        · intro p _ hsome
          injection hsome with hcur
          subst hcur
          exact hwin
        · intro hsome
          injection hsome with hcur
          rcases hc with h3 | h3 <;> simp [h3] at hcur
      case isFalse hwin =>
        split
        case isTrue hdraw =>
          refine ⟨hc, ?_, fun _ => hdraw⟩
          intro p hp hsome
          injection hsome with hcur
          rcases hp with h3 | h3 <;> simp [h3] at hcur
        case isFalse hdraw =>
          refine ⟨?_, ?_, ?_⟩
          · by_cases hx : g.current == "X" <;> simp [hx]
          · intro p _ hsome
            have hsome' : g.winner = some p := hsome
            rw [hwnone] at hsome'
            exact absurd hsome' (by simp)
          · intro hsome
            have hsome' : g.winner = some "Draw" := hsome
            rw [hwnone] at hsome'
            exact absurd hsome' (by simp)

theorem GameState.run_preserves_Inv (ms : List (Fin 3 × Fin 3)) (g : GameState)
    (h : g.Inv) : (g.run ms).Inv := by
  induction ms generalizing g with
  | nil => exact h
  | cons m ms ih =>
    exact ih _ (g.play_preserves_Inv m.1 m.2 h)

theorem GameState.init_Inv : GameState.init.Inv := by
  refine ⟨Or.inl rfl, ?_, ?_⟩
  · intro p _ hsome
    simp [GameState.init] at hsome
  · intro hsome
    simp [GameState.init] at hsome

/-- C9: for in-range cells, `play` returns `false` and leaves the state
unchanged whenever a winner exists or the cell is occupied; whenever it
returns `false` the state is unchanged, and whenever it returns `true`
every board cell other than `(r, c)` keeps its prior value. -/
theorem GameState.play_rejection_and_locality (g : GameState) (r c : Fin 3) :
    ((g.winner ≠ none ∨ g.board r c ≠ "") → g.play r c = (false, g)) ∧
    ((g.play r c).1 = false → (g.play r c).2 = g) ∧
    ((g.play r c).1 = true → ∀ r' c', ¬(r' = r ∧ c' = c) →
      (g.play r c).2.board r' c' = g.board r' c') := by
  simp only [GameState.play]
  split
  case isTrue h1 =>
    refine ⟨fun _ => rfl, fun _ => rfl, fun h => by simp at h⟩
  case isFalse h1 =>
    split
    case isTrue h2 =>
      refine ⟨fun _ => rfl, fun _ => rfl, fun h => by simp at h⟩
    case isFalse h2 =>
      have hwnone : g.winner = none := Option.not_isSome_iff_eq_none.mp h1
      have hbe : g.board r c = "" := by simpa using h2
      refine ⟨?_, ?_, ?_⟩
      · rintro (h | h)
        · exact absurd hwnone h
        · exact absurd hbe h
      · intro h
        split at h <;> simp at h
        split at h <;> simp at h
      · intro _ r' c' hne
        split
        · exact if_neg hne
        · split
          · exact if_neg hne
          · exact if_neg hne

/-- C9 witness: a fresh game accepts the move at `(0,0)` and cell `(1,1)`
is untouched. -/
theorem GameState.play_rejection_and_locality_witness :
    (GameState.init.play 0 0).2.board 1 1 = GameState.init.board 1 1 :=
  (GameState.play_rejection_and_locality GameState.init 0 0).2.2 (by decide) 1 1
    (by decide)

/-- C10: every state reachable from the initial state satisfies the
invariant — a declared winner `"X"`/`"O"` really has three in a row on the
current board, a `"Draw"` winner means a full board — and once a winner is
set, `play` never changes the state again. -/
theorem GameState.reachable_invariant :
    (∀ ms : List (Fin 3 × Fin 3), (GameState.init.run ms).Inv) ∧
    (∀ (g : GameState) (r c : Fin 3), g.winner.isSome → (g.play r c).2 = g) := by
  constructor
  · intro ms
    exact GameState.run_preserves_Inv ms GameState.init GameState.init_Inv
  · intro g r c h
    simp [GameState.play, h]

/-- C10 witness: after the game `X(0,0) O(1,0) X(0,1) O(1,1) X(0,2)`,
the winner is `"X"` and row 0 is indeed all `"X"`. -/
theorem GameState.reachable_invariant_witness :
    (GameState.init.run [(0,0),(1,0),(0,1),(1,1),(0,2)]).check_win "X" = true :=
  (GameState.reachable_invariant.1 [(0,0),(1,0),(0,1),(1,1),(0,2)]).2.1 "X"
    (Or.inl rfl) (by decide)

/-! ## Animation engine (modelled from the spec, §3 and §4.4) -/

/-- Clamp a rational to the unit interval, `clamp(x, 0, 1)`. -/
def clamp01 (x : ℚ) : ℚ := max 0 (min 1 x)

/-- Modelled from the spec: the eased `Animation` record of the Palladium
library (not shipped in the repository) — "start_value, end_value,
duration (>0), easing kind, elapsed time, terminal flag".  The easing
curve is carried as a function on rationals. -/
structure Animation where
  start_value : ℚ
  end_value : ℚ
  duration : ℚ
  easing : ℚ → ℚ
  elapsed : ℚ
  finished : Bool

/-- Modelled from the spec: "value(t) = start + (end − start) ×
ease(clamp(elapsed/duration, 0, 1))". -/
def Animation.value (a : Animation) : ℚ :=
  a.start_value +
    (a.end_value - a.start_value) * a.easing (clamp01 (a.elapsed / a.duration))

/-- Modelled from the spec: "`update(dt)` advances elapsed monotonically;
calling `update` after the animation is terminal is a no-op that keeps
returning `end`"; "becomes terminal once elapsed ≥ duration".  Returns the
produced value together with the advanced animation. -/
def Animation.update (a : Animation) (dt : ℚ) : ℚ × Animation :=
  if a.finished then (a.end_value, a)
  else
    let a' : Animation :=
      { a with elapsed := a.elapsed + dt,
               finished := decide (a.duration ≤ a.elapsed + dt) }
    (a'.value, a')

/-- Modelled from the spec: "`restart()` resets elapsed to 0 and clears
terminal". -/
def Animation.restart (a : Animation) : Animation :=
  { a with elapsed := 0, finished := false }

theorem clamp01_monotone : Monotone clamp01 := by
  intro x y hxy
  exact max_le_max le_rfl (min_le_min le_rfl hxy)

/-- C1: for an eased animation with positive duration and any easing
curve (monotone or not — elastic and exponential curves included), an
`update(dt)` call on a non-terminal animation returns `start +
(end − start) × ease(clamp((elapsed+dt)/duration, 0, 1))`; the value at
elapsed 0 is exactly `start` and the value at elapsed = duration is
exactly `end` (using the `[0,1] → [0,1]` easing endpoints `ease 0 = 0`,
`ease 1 = 1`); and for monotone easings specifically the value is
monotone (resp. antitone) in elapsed when `start ≤ end` (resp.
`end ≤ start`). -/
theorem Animation.eased_value_formula (a : Animation) (dt : ℚ)
    (hd : 0 < a.duration) (hnf : a.finished = false)
    (h0 : a.easing 0 = 0) (h1 : a.easing 1 = 1) :
    (a.update dt).1 = a.start_value + (a.end_value - a.start_value) *
      a.easing (clamp01 ((a.elapsed + dt) / a.duration)) ∧
    ({ a with elapsed := 0 } : Animation).value = a.start_value ∧
    ({ a with elapsed := a.duration } : Animation).value = a.end_value ∧
    (Monotone a.easing → a.start_value ≤ a.end_value →
      Monotone fun e => ({ a with elapsed := e } : Animation).value) ∧
    (Monotone a.easing → a.end_value ≤ a.start_value →
      Antitone fun e => ({ a with elapsed := e } : Animation).value) := by
  have hclamp0 : clamp01 (0 / a.duration) = 0 := by
    rw [zero_div]
    simp [clamp01]
  have hclamp1 : clamp01 (a.duration / a.duration) = 1 := by
    rw [div_self (ne_of_gt hd)]
    simp [clamp01]
  refine ⟨?_, ?_, ?_, ?_, ?_⟩
  · simp [Animation.update, hnf, Animation.value]
  · simp only [Animation.value, hclamp0, h0]
    ring
  · simp only [Animation.value, hclamp1, h1]
    ring
  · intro hm hse x y hxy
    simp only [Animation.value]
    have hdiv : x / a.duration ≤ y / a.duration :=
      (div_le_div_iff_of_pos_right hd).mpr hxy
    have heas := hm (clamp01_monotone hdiv)
    have := mul_le_mul_of_nonneg_left heas (sub_nonneg.mpr hse)
    linarith
  · intro hm hes x y hxy
    simp only [Animation.value]
    have hdiv : x / a.duration ≤ y / a.duration :=
      (div_le_div_iff_of_pos_right hd).mpr hxy
    have heas := hm (clamp01_monotone hdiv)
    have := mul_le_mul_of_nonpos_left heas (sub_nonpos.mpr hes)
    linarith

/-- C1 witness: a linear animation from 0 to 2 over duration 1, updated by
dt = 1/2 from elapsed 0, produces the closed-form value, and its value is
monotone in elapsed. -/
theorem Animation.eased_value_formula_witness :
    ((({ start_value := 0, end_value := 2, duration := 1, easing := id,
         elapsed := 0, finished := false } : Animation).update (1/2)).1 =
      0 + (2 - 0) * id (clamp01 ((0 + 1/2) / 1))) ∧
    Monotone fun e =>
      ({ start_value := 0, end_value := 2, duration := 1, easing := id,
         elapsed := e, finished := false } : Animation).value :=
  have h := Animation.eased_value_formula
    { start_value := 0, end_value := 2, duration := 1, easing := id,
      elapsed := 0, finished := false } (1/2)
    (by norm_num) rfl rfl rfl
  ⟨h.1, h.2.2.2.1 monotone_id (by norm_num)⟩

/-- C6: once an animation is terminal, `update(dt)` returns exactly
`end_value` and leaves the animation unchanged (elapsed and terminal flag
included), and `restart` resets elapsed to 0 and clears the terminal flag
while keeping every other field. -/
theorem Animation.terminal_update_noop (a : Animation) (dt : ℚ)
    (h : a.finished = true) :
    a.update dt = (a.end_value, a) ∧
    a.restart.elapsed = 0 ∧ a.restart.finished = false ∧
    a.restart.start_value = a.start_value ∧
    a.restart.end_value = a.end_value ∧
    a.restart.duration = a.duration ∧
    a.restart.easing = a.easing := by
  refine ⟨?_, rfl, rfl, rfl, rfl, rfl, rfl⟩
  simp [Animation.update, h]

/-- C6 witness: a concrete terminal animation is left unchanged by
`update`. -/
theorem Animation.terminal_update_noop_witness :
    ({ start_value := 0, end_value := 2, duration := 1, easing := id,
       elapsed := 3, finished := true } : Animation).update 1 =
      (2, { start_value := 0, end_value := 2, duration := 1, easing := id,
            elapsed := 3, finished := true }) :=
  (Animation.terminal_update_noop
    { start_value := 0, end_value := 2, duration := 1, easing := id,
      elapsed := 3, finished := true } 1 rfl).1

/-! ## Spring animation (modelled from the spec, §3 and §4.4) -/

/-- Modelled from the spec: the `SpringAnimation` record — "current value,
velocity, target value, stiffness, damping". -/
structure SpringAnimation where
  value : ℚ
  velocity : ℚ
  target : ℚ
  stiffness : ℚ
  damping : ℚ

/-- Modelled from the spec: "semi-implicit (symplectic) Euler ... `velocity
+= (stiffness×(target−value) − damping×velocity) × dt; value += velocity ×
dt`", the updated velocity feeding the position update. -/
def SpringAnimation.update (s : SpringAnimation) (dt : ℚ) : SpringAnimation :=
  let v :=
    s.velocity + (s.stiffness * (s.target - s.value) - s.damping * s.velocity) * dt
  { s with velocity := v, value := s.value + v * dt }

/-- C2: one `update(dt)` step is exactly the semi-implicit Euler step of
the damped harmonic oscillator: the new velocity is
`velocity + (stiffness×(target−value) − damping×velocity)×dt`, and the new
value is the old value plus the *new* velocity times `dt`; target,
stiffness and damping are untouched. -/
theorem SpringAnimation.update_semi_implicit_euler
    (s : SpringAnimation) (dt : ℚ) :
    (s.update dt).velocity =
      s.velocity + (s.stiffness * (s.target - s.value) - s.damping * s.velocity) * dt ∧
    (s.update dt).value = s.value + (s.update dt).velocity * dt ∧
    (s.update dt).target = s.target ∧
    (s.update dt).stiffness = s.stiffness ∧
    (s.update dt).damping = s.damping :=
  ⟨rfl, rfl, rfl, rfl, rfl⟩

/-! ## Input dispatcher (modelled from the spec, §4.6 and §7) -/

/-- Modelled from the spec: the `Input` state is "a mapping from key
identifier to last-press timestamp (or absent if not held)". -/
abbrev InputState := ℕ → Option ℚ

/-- Modelled from the spec: the recursive scan behind the ordered check —
each remaining combo key must be held with a timestamp ≥ the previous
combo element's timestamp `prev`. -/
def checkOrderedFrom (inp : InputState) : ℚ → List ℕ → Bool
  | _, [] => true
  | prev, k :: ks =>
    match inp k with
    | none => false
    | some t => decide (prev ≤ t) && checkOrderedFrom inp t ks

/-- Modelled from the spec: `check(combo, ordered)` — unordered: every
combo key currently held; ordered: additionally consecutive press
timestamps are non-decreasing (≥, ties allowed).  Per §7, malformed
(empty) combos simply never match. -/
def Input.check_hotkey (inp : InputState) (combo : List ℕ) (ordered : Bool) :
    Bool :=
  match combo with
  | [] => false
  | k :: ks =>
    match inp k with
    | none => false
    | some t =>
      if ordered then checkOrderedFrom inp t ks
      else ks.all fun k' => (inp k').isSome

/-- The spec's words: every key of the combo is currently held. -/
def AllHeld (inp : InputState) (combo : List ℕ) : Prop :=
  ∀ k ∈ combo, (inp k).isSome = true

/-- The spec's words: consecutive combo keys were pressed in declared
order — each key's press timestamp is ≥ the previous element's (ties
satisfy the constraint). -/
def PressOrdered (inp : InputState) (combo : List ℕ) : Prop :=
  List.Chain' (fun a b => ∀ ta tb, inp a = some ta → inp b = some tb → ta ≤ tb)
    combo

theorem checkOrderedFrom_iff (inp : InputState) (ks : List ℕ) (prev : ℚ) :
    checkOrderedFrom inp prev ks = true ↔
      AllHeld inp ks ∧ PressOrdered inp ks ∧
        (∀ k t, ks.head? = some k → inp k = some t → prev ≤ t) := by
  induction ks generalizing prev with
  | nil =>
    simp [checkOrderedFrom, AllHeld, PressOrdered]
  | cons k ks ih =>
    simp only [checkOrderedFrom]
    cases hk : inp k with
    | none =>
      simp only [Bool.false_eq_true, false_iff]
      rintro ⟨hall, -, -⟩
      have := hall k (by simp)
      rw [hk] at this
      simp at this
    | some t =>
      rw [Bool.and_eq_true, decide_eq_true_iff, ih]
      constructor
      · rintro ⟨hprev, hall, hord, hhead⟩
        refine ⟨?_, ?_, ?_⟩
        · intro k' hk'
          rcases List.mem_cons.mp hk' with h | h
          · subst h
            simp [hk]
          · exact hall k' h
        · rw [PressOrdered, List.chain'_cons']
          refine ⟨?_, hord⟩
          intro b hb ta tb hta htb
          rw [hk] at hta
          injection hta with hta
          subst hta
          exact hhead b tb (by simpa using hb) htb
        · intro k' t' hk' ht'
          simp only [List.head?_cons, Option.some.injEq] at hk'
          subst hk'
          rw [hk] at ht'
          injection ht' with ht'
          subst ht'
          exact hprev
      · rintro ⟨hall, hord, hhead⟩
        rw [PressOrdered, List.chain'_cons'] at hord
        refine ⟨hhead k t rfl hk,
          fun k' h => hall k' (List.mem_cons_of_mem _ h), hord.2, ?_⟩
        intro k' t' hk' ht'
        exact hord.1 k' (by simpa using hk') t t' hk ht'

/-- C7 counterexample: the claim's iff fails at the empty combo — per the
spec's error-handling policy an empty combo never matches, yet "every key
in the combo is held" is vacuously true. -/
theorem Input.check_hotkey_empty_combo_counterexample :
    ¬(Input.check_hotkey (fun _ => none) [] false = true ↔
        AllHeld (fun _ => none) []) := by
  simp [Input.check_hotkey, AllHeld]

/-- C7 (amended to nonempty combos): for a nonempty combo,
`check_hotkey inp combo true` succeeds iff every combo key is held and the
consecutive press timestamps are non-decreasing (ties allowed; keys held
outside the combo are irrelevant), and `check_hotkey inp combo false`
succeeds iff every combo key is held. -/
theorem Input.check_hotkey_correct (inp : InputState) (combo : List ℕ)
    (hne : combo ≠ []) :
    (Input.check_hotkey inp combo true = true ↔
      AllHeld inp combo ∧ PressOrdered inp combo) ∧
    (Input.check_hotkey inp combo false = true ↔ AllHeld inp combo) := by
  cases combo with
  | nil => exact absurd rfl hne
  | cons k ks =>
    constructor
    · cases hk : inp k with
      | none =>
        simp only [Input.check_hotkey, hk, Bool.false_eq_true, false_iff]
        rintro ⟨hall, -⟩
        have := hall k (by simp)
        rw [hk] at this
        simp at this
      | some t =>
        simp only [Input.check_hotkey, hk, if_true]
        rw [checkOrderedFrom_iff]
        constructor
        · rintro ⟨hall, hord, hhead⟩
          refine ⟨?_, ?_⟩
          · intro k' hk'
            rcases List.mem_cons.mp hk' with h | h
            · subst h
              simp [hk]
            · exact hall k' h
          · rw [PressOrdered, List.chain'_cons']
            refine ⟨?_, hord⟩
            intro b hb ta tb hta htb
            rw [hk] at hta
            injection hta with hta
            subst hta
            exact hhead b tb (by simpa using hb) htb
        · rintro ⟨hall, hord⟩
          rw [PressOrdered, List.chain'_cons'] at hord
          refine ⟨fun k' h => hall k' (List.mem_cons_of_mem _ h), hord.2, ?_⟩
          intro k' t' hk' ht'
          exact hord.1 k' (by simpa using hk') t t' hk ht'
    · cases hk : inp k with
      | none =>
        simp only [Input.check_hotkey, hk, Bool.false_eq_true, false_iff]
        intro hall
        have := hall k (by simp)
        rw [hk] at this
        simp at this
      | some t =>
        simp only [Input.check_hotkey, hk, Bool.false_eq_true, if_false]
        rw [List.all_eq_true]
        constructor
        · intro hall k' hk'
          rcases List.mem_cons.mp hk' with h | h
          · subst h
            simp [hk]
          · exact hall k' h
        · intro hall k' h
          exact hall k' (List.mem_cons_of_mem _ h)

/-- C7 witness: with key 1 pressed at t=0 and key 2 at t=1, the ordered
combo `[1, 2]` matches, so both keys are held and in press order. -/
theorem Input.check_hotkey_correct_witness :
    AllHeld (fun k => if k = 1 then some 0 else if k = 2 then some 1 else none)
      [1, 2] ∧
    PressOrdered
      (fun k => if k = 1 then some 0 else if k = 2 then some 1 else none)
      [1, 2] :=
  (Input.check_hotkey_correct
    (fun k => if k = 1 then some 0 else if k = 2 then some 1 else none)
    [1, 2] (by simp)).1.mp (by decide)

/-! ## Surface and Gaussian blur (modelled from the spec, §3, §4.1, §4.2) -/

/-- RGBA color with rational channels (index 3 is alpha), the normalized
space in which the spec does all blending arithmetic. -/
abbrev Color := Fin 4 → ℚ

/-- Modelled from the spec: a Surface is a width × height pixel buffer,
addressed by integer coordinates and meaningful on
`[0, width) × [0, height)`. -/
structure Surface where
  width : ℕ
  height : ℕ
  pix : ℤ → ℤ → Color

/-- The point `(p, q)` lies inside a `W × H` pixel rectangle. -/
def inBounds (W H : ℕ) (p q : ℤ) : Prop :=
  0 ≤ p ∧ p < (W : ℤ) ∧ 0 ≤ q ∧ q < (H : ℤ)

instance (W H : ℕ) (p q : ℤ) : Decidable (Palladium.inBounds W H p q) :=
  inferInstanceAs (Decidable (_ ∧ _ ∧ _ ∧ _))

/-- Clamp an integer coordinate into `[lo, hi]` (clamp-to-edge taps). -/
def clampI (lo hi i : ℤ) : ℤ := max lo (min hi i)

/-- Modelled from the spec: the convolution kernel radius derived from
`blur_radius` ("radius≈3σ"); `blur_radius = 0` yields radius 0. -/
def kernelRadius (br : ℚ) : ℕ := ⌈3 * br⌉₊

/-- Modelled from the spec: the horizontal pass of the separable
box-approximated convolution over columns `[x0, x1)`, taps clamped to the
edge (never wrapped, never transparent-padded). -/
def hpass (f : ℤ → ℤ → Color) (x0 x1 : ℤ) (R : ℕ) : ℤ → ℤ → Color :=
  fun p q ch =>
    (∑ k ∈ Finset.Icc (-(R : ℤ)) (R : ℤ),
      f (clampI x0 (x1 - 1) (p + k)) q ch) / (2 * R + 1)

/-- Modelled from the spec: the vertical pass over rows `[y0, y1)`. -/
def vpass (f : ℤ → ℤ → Color) (y0 y1 : ℤ) (R : ℕ) : ℤ → ℤ → Color :=
  fun p q ch =>
    (∑ k ∈ Finset.Icc (-(R : ℤ)) (R : ℤ),
      f p (clampI y0 (y1 - 1) (q + k)) ch) / (2 * R + 1)

/-- Modelled from the spec: two-pass (horizontal then vertical) blur of
the region `[x0, x1) × [y0, y1)` of a pixel field. -/
def blurRegion (f : ℤ → ℤ → Color) (x0 x1 y0 y1 : ℤ) (R : ℕ) :
    ℤ → ℤ → Color :=
  vpass (hpass f x0 x1 R) y0 y1 R

/-- Modelled from the spec: Gaussian blur of a whole Surface — the
separable two-pass convolution with kernel radius derived from
`blur_radius`, clamp-to-edge boundary condition. -/
def Surface.blur (s : Surface) (br : ℚ) : Surface :=
  { s with pix := blurRegion s.pix 0 s.width 0 s.height (kernelRadius br) }

theorem kernelRadius_zero : kernelRadius 0 = 0 := by
  simp [kernelRadius]

theorem clampI_of_mem (lo hi i : ℤ) (h0 : lo ≤ i) (h1 : i ≤ hi) :
    clampI lo hi i = i := by
  rw [clampI, min_eq_right h1, max_eq_right h0]

/-- C3: blurring with `blur_radius = 0` is the identity — the output
dimensions match and every in-bounds pixel of the output equals the
corresponding input pixel. -/
theorem Surface.blur_zero_identity (s : Surface) (x y : ℤ)
    (hx0 : 0 ≤ x) (hx : x < (s.width : ℤ))
    (hy0 : 0 ≤ y) (hy : y < (s.height : ℤ)) :
    (s.blur 0).pix x y = s.pix x y ∧
    (s.blur 0).width = s.width ∧ (s.blur 0).height = s.height := by
  refine ⟨?_, rfl, rfl⟩
  funext ch
  simp only [Surface.blur, blurRegion, kernelRadius_zero, vpass, hpass,
    Nat.cast_zero, neg_zero, Finset.Icc_self, Finset.sum_singleton]
  rw [clampI_of_mem 0 ((s.height : ℤ) - 1) (y + 0) (by omega) (by omega),
      clampI_of_mem 0 ((s.width : ℤ) - 1) (x + 0) (by omega) (by omega),
      add_zero, add_zero]
  norm_num

/-- C3 witness: a concrete 2×1 surface is unchanged by a radius-0 blur at
pixel (0, 0). -/
theorem Surface.blur_zero_identity_witness :
    (({ width := 2, height := 1,
        pix := fun p _ _ => if p = 0 then 0 else 1 } : Surface).blur 0).pix 0 0 =
      ({ width := 2, height := 1,
         pix := fun p _ _ => if p = 0 then 0 else 1 } : Surface).pix 0 0 :=
  (Surface.blur_zero_identity
    { width := 2, height := 1, pix := fun p _ _ => if p = 0 then 0 else 1 }
    0 0 (by norm_num) (by norm_num) (by norm_num) (by norm_num)).1

/-! ## Drawing primitives and clamping policy (modelled from the spec,
§4.1 and §7) -/

/-- Modelled from the spec: `fill_rect` writes `color` to every in-bounds
pixel of the rectangle `[x, x+w) × [y, y+h)`; out-of-bounds geometry is
clipped, never an error. -/
def Surface.fill_rect (s : Surface) (x y : ℤ) (w h : ℕ) (color : Color) :
    Surface :=
  { s with pix := fun p q =>
      if inBounds s.width s.height p q ∧ x ≤ p ∧ p < x + w ∧ y ≤ q ∧ q < y + h
      then color else s.pix p q }

/-- Modelled from the spec: `fill_circle` writes `color` to every in-bounds
pixel within distance `r` of the centre; out-of-bounds geometry is
clipped, never an error. -/
def Surface.fill_circle (s : Surface) (cx cy r : ℤ) (color : Color) :
    Surface :=
  { s with pix := fun p q =>
      if inBounds s.width s.height p q ∧ (p - cx)^2 + (q - cy)^2 ≤ r^2
      then color else s.pix p q }

/-- Modelled from the spec: a slider clamps an assigned value into its
configured `[lo, hi]` range instead of rejecting it. -/
def Slider.clamp_value (lo hi v : ℚ) : ℚ := max lo (min hi v)

/-! ## Material, Layer and LayerStack compositing (modelled from the
spec, §3 and §4.3).  Only the Normal (source-over) blend mode is
modelled; the behaviours under verification are stated for it. -/

/-- Modelled from the spec: the tagged Material variant
`{Solid | FrostedGlass(blur_radius)}`. -/
inductive Material where
  | solid : Material
  | frostedGlass : ℚ → Material

/-- Modelled from the spec: the `Material.frosted_glass(r)` factory, with
the blur radius clamped into `[0, maxRadius]` (a backend-defined
maximum). -/
def Material.frosted_glass (maxRadius r : ℚ) : Material :=
  .frostedGlass (max 0 (min maxRadius r))

/-- The blur radius a Material carries (0 for Solid). -/
def Material.blur_radius : Material → ℚ
  | .solid => 0
  | .frostedGlass r => r

/-- Modelled from the spec: a Layer — owned Surface, position, opacity,
Material and visibility flag. -/
structure Layer where
  surface : Surface
  x : ℤ
  y : ℤ
  opacity : ℚ
  material : Material
  visible : Bool

/-- Modelled from the spec: setting a layer's opacity clamps it into
`[0, 1]`. -/
def Layer.set_opacity (L : Layer) (o : ℚ) : Layer :=
  { L with opacity := clamp01 o }

/-- The layer's bounding box `[x, x+w) × [y, y+h)`. -/
def Layer.inBBox (L : Layer) (p q : ℤ) : Prop :=
  L.x ≤ p ∧ p < L.x + L.surface.width ∧
  L.y ≤ q ∧ q < L.y + L.surface.height

instance (L : Layer) (p q : ℤ) : Decidable (L.inBBox p q) :=
  inferInstanceAs (Decidable (_ ∧ _ ∧ _ ∧ _))

/-- Modelled from the spec: normalized source-over blending of a
straight-alpha source over a destination, with the layer opacity
multiplied into the source alpha. -/
def srcOver (dst src : Color) (op : ℚ) : Color :=
  fun ch =>
    if ch = 3 then src 3 * op + dst 3 * (1 - src 3 * op)
    else src ch * (src 3 * op) + dst ch * (1 - src 3 * op)

/-- Modelled from the spec, §4.3 step 2: draw the layer's own surface
content over the backdrop at `position`, clipped to the output bounds. -/
def drawLayer (W H : ℕ) (out : ℤ → ℤ → Color) (L : Layer) :
    ℤ → ℤ → Color :=
  fun p q =>
    if inBounds W H p q ∧ L.inBBox p q then
      srcOver (out p q) (L.surface.pix (p - L.x) (q - L.y)) (clamp01 L.opacity)
    else out p q

/-- Modelled from the spec, §4.3 step 1: a FrostedGlass layer samples the
region of the already-composited output that its bounding box covers
(clipped to the output), blurs it with the radius-derived kernel, and
uses it as the backdrop; a Solid layer leaves the backdrop alone. -/
def applyMaterial (W H : ℕ) (out : ℤ → ℤ → Color) (L : Layer) :
    ℤ → ℤ → Color :=
  match L.material with
  | .solid => out
  | .frostedGlass r =>
    fun p q =>
      if max 0 L.x ≤ p ∧ p < min (W : ℤ) (L.x + L.surface.width) ∧
         max 0 L.y ≤ q ∧ q < min (H : ℤ) (L.y + L.surface.height) then
        blurRegion out (max 0 L.x) (min (W : ℤ) (L.x + L.surface.width))
          (max 0 L.y) (min (H : ℤ) (L.y + L.surface.height))
          (kernelRadius r) p q
      else out p q

/-- Modelled from the spec, §4.3: one compositing step — skip invisible or
fully transparent layers, otherwise resolve the Material backdrop and draw
the layer over it. -/
def compositeStep (W H : ℕ) (out : ℤ → ℤ → Color) (L : Layer) :
    ℤ → ℤ → Color :=
  if L.visible = true ∧ 0 < L.opacity then
    drawLayer W H (applyMaterial W H out L) L
  else out

/-- Modelled from the spec: a LayerStack — background color and the
ordered layer list (bottom to top = paint order) over a fixed output
size. -/
structure LayerStack where
  width : ℕ
  height : ℕ
  background : Color
  layers : List Layer

/-- Modelled from the spec, §4.3: composite iterates the layers in paint
order over the background-filled output. -/
def LayerStack.composite (s : LayerStack) : Surface :=
  { width := s.width, height := s.height,
    pix := s.layers.foldl (compositeStep s.width s.height)
      (fun _ _ => s.background) }

theorem clampI_mem (lo hi i : ℤ) (h : lo ≤ hi) :
    lo ≤ clampI lo hi i ∧ clampI lo hi i ≤ hi := by
  unfold clampI
  omega

/-- Region-blur only reads the region: two fields agreeing on
`[x0, x1-1] × [y0, y1-1]` blur identically there. -/
theorem blurRegion_congr (f g : ℤ → ℤ → Color) (x0 x1 y0 y1 : ℤ) (R : ℕ)
    (hx : x0 ≤ x1 - 1) (hy : y0 ≤ y1 - 1)
    (h : ∀ a b, x0 ≤ a → a ≤ x1 - 1 → y0 ≤ b → b ≤ y1 - 1 → f a b = g a b)
    (p q : ℤ) :
    blurRegion f x0 x1 y0 y1 R p q = blurRegion g x0 x1 y0 y1 R p q := by
  funext ch
  simp only [blurRegion, vpass, hpass]
  congr 1
  apply Finset.sum_congr rfl
  intro k _
  congr 1
  apply Finset.sum_congr rfl
  intro k' _
  have ha := clampI_mem x0 (x1 - 1) (p + k') hx
  have hb := clampI_mem y0 (y1 - 1) (q + k) hy
  rw [h _ _ ha.1 ha.2 hb.1 hb.2]

/-- A compositing step leaves every pixel outside the layer's bounding box
untouched. -/
theorem compositeStep_outside_bbox (W H : ℕ) (out : ℤ → ℤ → Color)
    (L : Layer) (p q : ℤ) (h : ¬ L.inBBox p q) :
    compositeStep W H out L p q = out p q := by
  rw [compositeStep]
  split
  case isFalse _ => rfl
  case isTrue hv =>
    rw [drawLayer]
    rw [if_neg fun hc => h hc.2]
    rw [applyMaterial]
    cases hm : L.material with
    | solid => rfl
    | frostedGlass r =>
      simp only
      rw [if_neg]
      intro hc
      rw [Layer.inBBox] at h
      omega

/-- A compositing step at `(p, q)` depends only on the backdrop at `(p, q)`
and inside the layer's bounding box. -/
theorem compositeStep_congr (W H : ℕ) (out1 out2 : ℤ → ℤ → Color)
    (L : Layer) (p q : ℤ)
    (hbb : ∀ p' q', L.inBBox p' q' → out1 p' q' = out2 p' q')
    (hpq : out1 p q = out2 p q) :
    compositeStep W H out1 L p q = compositeStep W H out2 L p q := by
  rw [compositeStep, compositeStep]
  split
  case isFalse _ => exact hpq
  case isTrue hv =>
    rw [drawLayer, drawLayer]
    have hmat : applyMaterial W H out1 L p q = applyMaterial W H out2 L p q := by
      cases hm : L.material with
      | solid => simpa only [applyMaterial, hm] using hpq
      | frostedGlass r =>
        simp only [applyMaterial, hm]
        by_cases hreg : max 0 L.x ≤ p ∧ p < min (W : ℤ) (L.x + L.surface.width) ∧
            max 0 L.y ≤ q ∧ q < min (H : ℤ) (L.y + L.surface.height)
        · rw [if_pos hreg, if_pos hreg]
          apply blurRegion_congr
          · omega
          · omega
          · intro a b ha0 ha1 hb0 hb1
            apply hbb
            rw [Layer.inBBox]
            omega
        · rw [if_neg hreg, if_neg hreg]
          exact hpq
    by_cases hin : inBounds W H p q ∧ L.inBBox p q
    · rw [if_pos hin, if_pos hin, hmat]
    · rw [if_neg hin, if_neg hin]
      exact hmat

/-- Compositing steps of layers with disjoint bounding boxes commute. -/
theorem compositeStep_comm (W H : ℕ) (out : ℤ → ℤ → Color) (A B : Layer)
    (hdisj : ∀ p q, ¬(A.inBBox p q ∧ B.inBBox p q)) (p q : ℤ) :
    compositeStep W H (compositeStep W H out A) B p q =
      compositeStep W H (compositeStep W H out B) A p q := by
  by_cases hA : A.inBBox p q
  · have hB : ¬ B.inBBox p q := fun hB => hdisj p q ⟨hA, hB⟩
    rw [compositeStep_outside_bbox W H _ B p q hB]
    apply compositeStep_congr
    · intro p' q' hA'
      exact (compositeStep_outside_bbox W H out B p' q'
        (fun hB' => hdisj p' q' ⟨hA', hB'⟩)).symm
    · exact (compositeStep_outside_bbox W H out B p q hB).symm
  · by_cases hB : B.inBBox p q
    · rw [compositeStep_outside_bbox W H _ A p q hA]
      symm
      apply compositeStep_congr
      · intro p' q' hB'
        exact (compositeStep_outside_bbox W H out A p' q'
          (fun hA' => hdisj p' q' ⟨hA', hB'⟩)).symm
      · exact (compositeStep_outside_bbox W H out A p q hA).symm
    · rw [compositeStep_outside_bbox W H (compositeStep W H out A) B p q hB,
          compositeStep_outside_bbox W H out A p q hA,
          compositeStep_outside_bbox W H (compositeStep W H out B) A p q hA,
          compositeStep_outside_bbox W H out B p q hB]

/-- A compositing step of a Solid-material layer reads the backdrop only
at the pixel it produces. -/
theorem compositeStep_solid_congr (W H : ℕ) (out1 out2 : ℤ → ℤ → Color)
    (L : Layer) (p q : ℤ) (hm : L.material = Material.solid)
    (h : out1 p q = out2 p q) :
    compositeStep W H out1 L p q = compositeStep W H out2 L p q := by
  rw [compositeStep, compositeStep]
  split
  case isFalse _ => exact h
  case isTrue hv =>
    rw [drawLayer, drawLayer]
    have hmat : applyMaterial W H out1 L p q = applyMaterial W H out2 L p q := by
      simpa only [applyMaterial, hm] using h
    by_cases hin : inBounds W H p q ∧ L.inBBox p q
    · rw [if_pos hin, if_pos hin, hmat]
    · rw [if_neg hin, if_neg hin]
      exact hmat

/-- Folding Solid-material layers over two backdrops that agree at a pixel
produces the same value at that pixel. -/
theorem foldl_solid_pointwise (W H : ℕ) (post : List Layer)
    (hpost : ∀ L ∈ post, L.material = Material.solid)
    (out1 out2 : ℤ → ℤ → Color) (p q : ℤ) (h : out1 p q = out2 p q) :
    List.foldl (compositeStep W H) out1 post p q =
      List.foldl (compositeStep W H) out2 post p q := by
  induction post generalizing out1 out2 with
  | nil => exact h
  | cons L ls ih =>
    simp only [List.foldl_cons]
    exact ih (fun L' hL' => hpost L' (List.mem_cons_of_mem _ hL')) _ _
      (compositeStep_solid_congr W H out1 out2 L p q (hpost L (by simp)) h)

/-- C4 (amended): with every layer above the FrostedGlass layer Solid, the
composite agrees with the Solid-material composite at every pixel outside
that layer's bounding box — its blur touches only the sampled bounding-box
region. -/
theorem LayerStack.frosted_affects_only_bbox (W H : ℕ) (bg : Color)
    (pre post : List Layer) (Lf : Layer) (r : ℚ)
    (_hmat : Lf.material = Material.frostedGlass r)
    (hpost : ∀ L ∈ post, L.material = Material.solid)
    (p q : ℤ) (hout : ¬ Lf.inBBox p q) :
    (LayerStack.composite ⟨W, H, bg, pre ++ Lf :: post⟩).pix p q =
      (LayerStack.composite
        ⟨W, H, bg, pre ++ { Lf with material := Material.solid } :: post⟩).pix
        p q := by
  have hout' : ¬ ({ Lf with material := Material.solid } : Layer).inBBox p q :=
    hout
  simp only [LayerStack.composite, List.foldl_append, List.foldl_cons]
  apply foldl_solid_pointwise W H post hpost
  rw [compositeStep_outside_bbox W H _ Lf p q hout,
      compositeStep_outside_bbox W H _ _ p q hout']

/-- Concrete layers for the C4 counterexample: an opaque base with a dark
and a light pixel, plus two transparent frosted lenses. -/
def cexBase : Layer where
  surface :=
    { width := 2, height := 1,
      pix := fun p _ ch => if ch = 3 then 1 else if p = 0 then 0 else 1 }
  x := 0
  y := 0
  opacity := 1
  material := .solid
  visible := true

def cexGlassLow : Layer where
  surface := { width := 2, height := 1, pix := fun _ _ _ => 0 }
  x := 0
  y := 0
  opacity := 1
  material := .frostedGlass (1/3)
  visible := true

def cexGlassHigh : Layer :=
  { cexGlassLow with x := 1 }

theorem sum_Icc_neg_one_one (g : ℤ → ℚ) :
    (∑ k ∈ Finset.Icc (-1 : ℤ) 1, g k) = g (-1) + g 0 + g 1 := by
  have h : Finset.Icc (-1 : ℤ) 1 = ({-1, 0, 1} : Finset ℤ) := by decide
  rw [h, Finset.sum_insert (by decide), Finset.sum_insert (by decide),
    Finset.sum_singleton]
  ring

/-- Radius-1 blur of a single-row region, written out as the average of
the three clamped horizontal taps. -/
theorem blurRegion_single_row (f : ℤ → ℤ → Color) (x0 x1 p : ℤ) (ch : Fin 4) :
    blurRegion f x0 x1 0 1 1 p 0 ch =
      (f (clampI x0 (x1 - 1) (p + -1)) 0 ch + f (clampI x0 (x1 - 1) (p + 0)) 0 ch +
        f (clampI x0 (x1 - 1) (p + 1)) 0 ch) / 3 := by
  simp only [blurRegion, vpass, hpass, Nat.cast_one]
  rw [sum_Icc_neg_one_one]
  have hc : ∀ k : ℤ, clampI 0 (1 - 1) (0 + k) = 0 := by
    intro k
    rw [clampI]
    omega
  rw [hc, hc, hc, sum_Icc_neg_one_one]
  ring

/-- A visible positive-opacity layer whose content pixel is fully
transparent contributes nothing beyond its Material's backdrop effect. -/
theorem compositeStep_transparent (W H : ℕ) (out : ℤ → ℤ → Color) (L : Layer)
    (p q : ℤ) (hvis : L.visible = true) (hop : 0 < L.opacity)
    (halpha : L.surface.pix (p - L.x) (q - L.y) 3 = 0) (ch : Fin 4)
    (hch : ¬ ch = 3) :
    compositeStep W H out L p q ch = applyMaterial W H out L p q ch := by
  rw [compositeStep, if_pos ⟨hvis, hop⟩]
  simp only [drawLayer]
  by_cases hin : inBounds W H p q ∧ L.inBBox p q
  · rw [if_pos hin]
    simp only [srcOver, halpha]
    rw [if_neg hch]
    ring
  · rw [if_neg hin]

/-- C4 counterexample: in a stack with a second FrostedGlass layer above,
the pixel `(2, 0)` lies outside the lower frosted layer's bounding box and
yet the composite there differs between the FrostedGlass run and the
Solid run — the claim as stated fails. -/
theorem LayerStack.frosted_bbox_counterexample :
    ¬ cexGlassLow.inBBox 2 0 ∧
    (LayerStack.composite
        ⟨3, 1, fun _ => 0, [cexBase, cexGlassLow, cexGlassHigh]⟩).pix 2 0 0 ≠
      (LayerStack.composite
        ⟨3, 1, fun _ => 0,
          [cexBase, { cexGlassLow with material := Material.solid },
            cexGlassHigh]⟩).pix 2 0 0 := by
  have hkr : kernelRadius (1/3) = 1 := by norm_num [kernelRadius]
  have hbg : ∀ W H : ℕ,
      (LayerStack.composite ⟨W, H, fun _ => 0, []⟩).pix = fun _ _ _ => 0 := by
    intro W H
    rfl
  -- the backdrop after the opaque base layer
  have hA : ∀ p : ℤ, 0 ≤ p → p ≤ 1 →
      compositeStep 3 1 (fun _ _ _ => 0) cexBase p 0 0 =
        (if p = 0 then 0 else 1) := by
    intro p hp0 hp1
    rw [compositeStep,
      if_pos (⟨rfl, by norm_num [cexBase]⟩ :
        cexBase.visible = true ∧ 0 < cexBase.opacity)]
    simp only [drawLayer]
    rw [if_pos (⟨⟨hp0, by omega, le_refl 0, by omega⟩,
      ⟨hp0, by simp [cexBase]; omega, by simp [cexBase], by simp [cexBase]⟩⟩ :
        inBounds 3 1 p 0 ∧ cexBase.inBBox p 0)]
    simp only [applyMaterial, cexBase, srcOver]
    have hcl : clamp01 (1 : ℚ) = 1 := by norm_num [clamp01]
    norm_num [hcl]
    split
    case isTrue h => exact absurd h (by decide)
    case isFalse _ => rfl
  have hA2 : compositeStep 3 1 (fun _ _ _ => 0) cexBase 2 0 0 = 0 := by
    rw [compositeStep_outside_bbox 3 1 _ cexBase 2 0 (by decide)]
  -- the backdrop after the lower frosted lens
  have hB1 : compositeStep 3 1 (compositeStep 3 1 (fun _ _ _ => 0) cexBase)
      cexGlassLow 1 0 0 = 2/3 := by
    rw [compositeStep_transparent 3 1 _ cexGlassLow 1 0 rfl
      (by norm_num [cexGlassLow]) (by simp [cexGlassLow]) 0 (by decide)]
    simp only [applyMaterial, cexGlassLow]
    rw [if_pos (by norm_num)]
    norm_num [hkr]
    rw [blurRegion_single_row]
    have h0 : clampI 0 (2 - 1) (1 + -1) = 0 := by rw [clampI]; omega
    have h1 : clampI 0 (2 - 1) (1 + 0) = 1 := by rw [clampI]; omega
    have h2 : clampI 0 (2 - 1) (1 + 1) = 1 := by rw [clampI]; omega
    rw [h0, h1, h2, hA 0 le_rfl (by norm_num), hA 1 (by norm_num) le_rfl]
    norm_num
  have hB2 : compositeStep 3 1 (compositeStep 3 1 (fun _ _ _ => 0) cexBase)
      cexGlassLow 2 0 0 = 0 := by
    rw [compositeStep_outside_bbox 3 1 _ cexGlassLow 2 0 (by decide)]
    exact hA2
  -- the same backdrop when the lower lens is Solid
  have hB1s : compositeStep 3 1 (compositeStep 3 1 (fun _ _ _ => 0) cexBase)
      { cexGlassLow with material := Material.solid } 1 0 0 = 1 := by
    rw [compositeStep_transparent 3 1 _ _ 1 0 rfl
      (by norm_num [cexGlassLow]) (by simp [cexGlassLow]) 0 (by decide)]
    simp only [applyMaterial]
    rw [hA 1 (by norm_num) le_rfl]
    norm_num
  have hB2s : compositeStep 3 1 (compositeStep 3 1 (fun _ _ _ => 0) cexBase)
      { cexGlassLow with material := Material.solid } 2 0 0 = 0 := by
    rw [compositeStep_outside_bbox 3 1 _ _ 2 0 (by decide)]
    exact hA2
  -- the upper frosted lens propagates the difference to pixel (2, 0)
  have hC : ∀ out : ℤ → ℤ → Color,
      compositeStep 3 1 out cexGlassHigh 2 0 0 =
        (out 1 0 0 + out 2 0 0 + out 2 0 0) / 3 := by
    intro out
    rw [compositeStep_transparent 3 1 out cexGlassHigh 2 0 rfl
      (by norm_num [cexGlassHigh, cexGlassLow])
      (by simp [cexGlassHigh, cexGlassLow]) 0 (by decide)]
    simp only [applyMaterial, cexGlassHigh, cexGlassLow]
    rw [if_pos (by norm_num)]
    norm_num [hkr]
    rw [blurRegion_single_row]
    have h0 : clampI 1 (3 - 1) (2 + -1) = 1 := by rw [clampI]; omega
    have h1 : clampI 1 (3 - 1) (2 + 0) = 2 := by rw [clampI]; omega
    have h2 : clampI 1 (3 - 1) (2 + 1) = 2 := by rw [clampI]; omega
    rw [h0, h1, h2]
  refine ⟨by decide, ?_⟩
  show (LayerStack.composite
      ⟨3, 1, fun _ => 0, [cexBase, cexGlassLow, cexGlassHigh]⟩).pix 2 0 0 ≠ _
  simp only [LayerStack.composite, List.foldl_cons, List.foldl_nil]
  rw [hC, hC, hB1, hB2, hB1s, hB2s]
  norm_num

/-- C4 witness: a one-layer stack made of a single frosted lens leaves the
out-of-box pixel `(2, 0)` identical to the Solid run. -/
theorem LayerStack.frosted_affects_only_bbox_witness :
    (LayerStack.composite ⟨3, 1, fun _ => 0, [] ++ cexGlassLow :: []⟩).pix 2 0 =
      (LayerStack.composite
        ⟨3, 1, fun _ => 0,
          [] ++ { cexGlassLow with material := Material.solid } :: []⟩).pix 2 0 :=
  LayerStack.frosted_affects_only_bbox 3 1 (fun _ => 0) [] [] cexGlassLow (1/3)
    rfl (by simp) 2 0 (by decide)

/-- C5: compositing is a pure function of the stack — repeated calls are
literally the same value and no layer is mutated — two overlapping layers
with an opaque top composite to the top layer's color at every covered
pixel, and layers with disjoint bounding boxes composite identically in
either order. -/
theorem LayerStack.composite_opaque_order (W H : ℕ) (bg : Color)
    (A B : Layer) (p q : ℤ) :
    ((LayerStack.composite ⟨W, H, bg, [A, B]⟩).pix =
      (LayerStack.composite ⟨W, H, bg, [A, B]⟩).pix) ∧
    (B.visible = true → B.opacity = 1 →
      B.surface.pix (p - B.x) (q - B.y) 3 = 1 →
      inBounds W H p q → B.inBBox p q →
      (LayerStack.composite ⟨W, H, bg, [A, B]⟩).pix p q =
        B.surface.pix (p - B.x) (q - B.y)) ∧
    ((∀ a b, ¬(A.inBBox a b ∧ B.inBBox a b)) →
      (LayerStack.composite ⟨W, H, bg, [A, B]⟩).pix =
        (LayerStack.composite ⟨W, H, bg, [B, A]⟩).pix) := by
  refine ⟨rfl, ?_, ?_⟩
  · intro hvis hop ha3 hin hbb
    funext ch
    simp only [LayerStack.composite, List.foldl_cons, List.foldl_nil]
    rw [compositeStep]
    rw [if_pos ⟨hvis, by rw [hop]; norm_num⟩]
    rw [drawLayer]
    rw [if_pos ⟨hin, hbb⟩]
    simp only [srcOver, hop, ha3]
    have hc1 : clamp01 1 = 1 := by norm_num [clamp01]
    rw [hc1]
    by_cases h3 : ch = 3
    · rw [if_pos h3, h3, ha3]
      ring
    · rw [if_neg h3]
      ring
  · intro hdisj
    funext a b
    simp only [LayerStack.composite, List.foldl_cons, List.foldl_nil]
    exact compositeStep_comm W H (fun _ _ => bg) A B hdisj a b

/-- A concrete opaque 1×1 white layer for the C5 witness. -/
def cexOpaque : Layer :=
  { surface := { width := 1, height := 1, pix := fun _ _ _ => 1 },
    x := 0, y := 0, opacity := 1, material := .solid, visible := true }

/-- C5 witness: two stacked opaque 1×1 layers composite to the top layer's
color at the overlap pixel `(0, 0)`. -/
theorem LayerStack.composite_opaque_order_witness :
    (LayerStack.composite ⟨1, 1, (fun _ => 0), [cexBase, cexOpaque]⟩).pix 0 0 =
      cexOpaque.surface.pix (0 - cexOpaque.x) (0 - cexOpaque.y) :=
  (LayerStack.composite_opaque_order 1 1 (fun _ => 0) cexBase cexOpaque 0 0).2.1
    rfl rfl rfl (by decide) (by decide)

/-- C8: drawing primitives are total functions that clip, never fail:
whatever the coordinates (wholly or partly out of bounds), `fill_rect` and
`fill_circle` leave every pixel outside `[0, width) × [0, height)`
untouched and preserve the dimensions; out-of-range numeric inputs are
clamped, never rejected — an assigned layer opacity lands in `[0, 1]`, a
frosted-glass blur radius lands in `[0, maxR]`, and a slider value lands
in its configured `[lo, hi]`. -/
theorem Surface.primitives_clip_and_clamp (s : Surface) (x y cx cy r : ℤ)
    (w h : ℕ) (color : Color) (L : Layer) (o maxR br lo hi v : ℚ) (p q : ℤ)
    (hout : ¬ inBounds s.width s.height p q) (hmax : 0 ≤ maxR)
    (hlohi : lo ≤ hi) :
    (s.fill_rect x y w h color).pix p q = s.pix p q ∧
    (s.fill_circle cx cy r color).pix p q = s.pix p q ∧
    (s.fill_rect x y w h color).width = s.width ∧
    (s.fill_rect x y w h color).height = s.height ∧
    (s.fill_circle cx cy r color).width = s.width ∧
    (s.fill_circle cx cy r color).height = s.height ∧
    (0 ≤ (L.set_opacity o).opacity ∧ (L.set_opacity o).opacity ≤ 1) ∧
    (0 ≤ (Material.frosted_glass maxR br).blur_radius ∧
      (Material.frosted_glass maxR br).blur_radius ≤ maxR) ∧
    (lo ≤ Slider.clamp_value lo hi v ∧ Slider.clamp_value lo hi v ≤ hi) := by
  refine ⟨?_, ?_, rfl, rfl, rfl, rfl, ⟨?_, ?_⟩, ⟨?_, ?_⟩, ⟨?_, ?_⟩⟩
  · rw [Surface.fill_rect]
    exact if_neg fun hc => hout hc.1
  · rw [Surface.fill_circle]
    exact if_neg fun hc => hout hc.1
  · exact le_max_left 0 _
  · exact max_le zero_le_one (min_le_left 1 o)
  · exact le_max_left 0 _
  · exact max_le hmax (min_le_left maxR br)
  · exact le_max_left lo _
  · exact max_le hlohi (min_le_left hi v)

/-- C8 witness: on a 1×1 surface, a huge off-surface circle leaves the
out-of-bounds pixel `(5, 0)` untouched, and the clamps land in range. -/
theorem Surface.primitives_clip_and_clamp_witness :
    (({ width := 1, height := 1, pix := fun _ _ _ => 0 } : Surface).fill_circle
        50 50 100 (fun _ => 1)).pix 5 0 =
      ({ width := 1, height := 1, pix := fun _ _ _ => 0 } : Surface).pix 5 0 ∧
    0 ≤ (Material.frosted_glass 50 99).blur_radius ∧
    (Material.frosted_glass 50 99).blur_radius ≤ 50 :=
  have h := Surface.primitives_clip_and_clamp
    { width := 1, height := 1, pix := fun _ _ _ => 0 } 0 0 50 50 100 1 1
    (fun _ => 1) cexOpaque 2 50 99 0 1 (1/2) 5 0 (by decide) (by norm_num)
    (by norm_num)
  ⟨h.2.1, h.2.2.2.2.2.2.2.1⟩

end Palladium
